import Mathlib

/-!
Shallow embedding of the DOCS tiered LSM key-value store.

Byte strings (C++ `std::string`) are modelled as `List Nat`; the C++
lexicographic `operator<` coincides with the lexicographic order on
`List Nat`, and `s.length()` with `List.length`.

The definitions below are transcribed from:
 * `src/unnamed/part_000` — `REPL::GET`, `REPL::SET`, `REPL::DELETE`;
 * `src/Part3/src/client.cpp` — `Database::FLUSH` (buffer swap and run
   write-out), `merge`, `Database::compact`, `Database::binary_search`,
   `Database::initializer_helper`, `Database::initialize_memtable`,
   `BloomFilter::add/contains/clear`;
 * `src/Part1/src/database.h` — the engine constants `MAX`, `MIN_TH`,
   `NOFILTERS`, and the 10000-bit filter width.

`std::hash<string>` is implementation defined, so every definition is
parametric in a hash function `h : Str → Nat`; the concrete `stdHash`
below is a stand-in used only to evaluate closed statements (none of the
proved properties depend on the choice of `h`).
-/

namespace Docs

/-- Byte strings: C++ `std::string` as a list of byte values. -/
abbrev Str := List Nat

/-- `string TOMBSTONE = "\r\n"` (client.cpp line 169): CR LF. -/
def TOMBSTONE : Str := [13, 10]

/-- `#define MAX 4000000` (database.h): both the record-size limit and the
memtable flush threshold use this constant. -/
def MAXC : Nat := 4000000

/-- `#define MIN_TH 4` (database.h): tier fan-out threshold. -/
def MIN_TH : Nat := 4

/-- `#define NOFILTERS 3` (database.h): number of hash derivatives. -/
def NOFILTERS : Nat := 3

/-- `bitset<10000>` width of a BloomFilter bit array (database.h). -/
def FILTER_WIDTH : Nat := 10000

/-- A concrete stand-in hash used only for closed evaluations (the real
`std::hash<string>` is implementation defined; all theorems are
parametric in the hash). -/
def stdHash (s : Str) : Nat := s.foldl (fun a c => a * 131 + c) 5381

/-! ### BloomFilter (client.cpp lines 923-970) -/

/-- The `bitset<10000>` bit array of a BloomFilter, as its indicator
function. Only indices below `FILTER_WIDTH` are ever set or read. -/
def BF : Type := Nat → Bool

/-- `BloomFilter::clear` / the freshly constructed filter: all bits 0. -/
def bfClear : BF := fun _ => false

/-- `BloomFilter::add`: for each `i < NOFILTERS` set bit
`(hash(key) + i) % bitArray.size()`. The constructor pushes `NOFILTERS`
copies of the same `hash<string>`, so all probes use the same `h`. -/
def bfAdd (h : Str → Nat) (key : Str) (f : BF) : BF :=
  fun idx => f idx || (List.range NOFILTERS).any fun i =>
    (h key + i) % FILTER_WIDTH == idx

/-- `BloomFilter::contains`: true iff all `NOFILTERS` probed bits are set. -/
def bfContains (h : Str → Nat) (f : BF) (key : Str) : Bool :=
  (List.range NOFILTERS).all fun i => f ((h key + i) % FILTER_WIDTH)

/-! ### The memtable: `std::map<string,string>` as a key-sorted
association list. -/

/-- `memtable[key] = value`: sorted insert-or-assign, mirroring
`std::map::operator[]` assignment. -/
def mapInsert (k : Str) (v : Str) : List (Str × Str) → List (Str × Str)
  | [] => [(k, v)]
  | (k1, v1) :: rest =>
    if k < k1 then (k, v) :: (k1, v1) :: rest
    else if k = k1 then (k, v) :: rest
    else (k1, v1) :: mapInsert k v rest

/-- `memtable.find(key)`: first binding of `k`, if any. -/
def mapFind (k : Str) : List (Str × Str) → Option Str
  | [] => none
  | (k1, v1) :: rest => if k = k1 then some v1 else mapFind k rest

/-! ### Engine state

One record of state covering the fields the claims touch: the active
memtable and WAL, the frozen (`read_`) memtable of a flush in progress,
the two Tier-0 filters (`filters[0][0]` active, `filters[0][1]` frozen),
`mem_size`, `flushrunning`, `ifread_memtable`, and the on-disk tiers.
A tier (`Tier_i` for `i ≥ 1`) is a list of runs, oldest first (run `j`
at position `j-1`), each run paired with its BloomFilter
(`filters[i][j-1]`); a run is its decoded record list. -/

structure DB where
  memtable : List (Str × Str)
  readMemtable : List (Str × Str)
  activeFilter : BF
  frozenFilter : BF
  memSize : Nat
  wal : List (Str × Str)
  flushrunning : Bool
  ifreadMemtable : Bool
  tiers : List (List (List (Str × Str) × BF))

/-- The engine state right after construction: everything empty. -/
def DB.empty : DB :=
  { memtable := [], readMemtable := [], activeFilter := bfClear,
    frozenFilter := bfClear, memSize := 0, wal := [],
    flushrunning := false, ifreadMemtable := false, tiers := [] }

/-! ### `Database::binary_search` / `Database::Find`
(client.cpp lines 646-710)

The C++ binary search seeks offset pairs in the metadata file and
compares the key bytes in the data file; on the decoded record list this
is binary search over positions `lo..hi` with the same comparisons.
Bounds are `long long` (can reach -1), modelled with fuel plus integer
bounds. -/

def bsearchGo (run : List (Str × Str)) (key : Str) :
    Nat → Int → Int → Option Str
  | 0, _, _ => none
  | fuel + 1, lo, hi =>
    if lo ≤ hi then
      let mid : Int := (lo + hi) / 2
      match run.get? mid.toNat with
      | none => none
      | some (k1, v1) =>
        if key < k1 then bsearchGo run key fuel lo (mid - 1)
        else if key = k1 then some v1
        else bsearchGo run key fuel (mid + 1) hi
    else none

/-- `Database::Find`: binary search a run for `key`; `entries` comes from
the run (the final `u64` of the metadata file — see `C3` for the
discrepancy on compacted runs). -/
def runFind (run : List (Str × Str)) (key : Str) : Option Str :=
  bsearchGo run key (run.length + 1) 0 ((run.length : Int) - 1)

/-! ### `REPL::GET` (part_000 lines 15-61) -/

/-- The inner `for (j = levels_main[i]; j > 0; --j)` loop of `GET`:
iterate one tier's runs newest first; a run whose filter reports
`contains` is probed with `Find`; on a hit the loop returns the
outcome (`none` for a tombstone, the value otherwise); a filter miss or
`Find` miss continues with the next run. `none` means fall through to
the next tier. -/
def tierScan (h : Str → Nat) (key : Str) :
    List (List (Str × Str) × BF) → Option (Option Str)
  | [] => none
  | (run, f) :: older =>
    if bfContains h f key then
      match runFind run key with
      | some v => if v = TOMBSTONE then some none else some (some v)
      | none => tierScan h key older
    else tierScan h key older

/-- The outer `for (i = 1; i < levels_main.size(); ++i)` loop of `GET`. -/
def tiersScan (h : Str → Nat) (key : Str) :
    List (List (List (Str × Str) × BF)) → Option Str
  | [] => none
  | tier :: lower =>
    match tierScan h key tier.reverse with
    | some r => r
    | none => tiersScan h key lower

/-- `REPL::GET`: check the Tier-0 active filter and the memtable; a found
`TOMBSTONE` returns absent; otherwise search the tiers newest first. -/
def GET (h : Str → Nat) (db : DB) (key : Str) : Option Str :=
  if bfContains h db.activeFilter key then
    match mapFind key db.memtable with
    | some v => if v = TOMBSTONE then none else some v
    | none => tiersScan h key db.tiers
  else tiersScan h key db.tiers

/-! ### `REPL::SET` (part_000 lines 75-106)

The `while (flushrunning)` gate only suspends the writer until the
Flusher's swap completes; the definition below describes the effect of a
`SET` once it holds the Tier-0 write lock with the gate passed. -/

/-- `REPL::SET`: reject if `|k| + |v| >= MAX`; otherwise append to the
WAL, insert into the memtable, add the key to the active filter, bump
`mem_size`, and raise `flushrunning` when `mem_size >= MAX`. -/
def SET (h : Str → Nat) (db : DB) (key value : Str) : DB × Bool :=
  if key.length + value.length ≥ MAXC then (db, false)
  else
    let sz := db.memSize + key.length + value.length
    ({ db with
        wal := db.wal ++ [(key, value)],
        memtable := mapInsert key value db.memtable,
        memSize := sz,
        activeFilter := bfAdd h key db.activeFilter,
        flushrunning := if sz ≥ MAXC then true else db.flushrunning },
      true)

/-- `REPL::DELETE`: literally `SET(key, TOMBSTONE)` (part_000 line 119). -/
def DELETE (h : Str → Nat) (db : DB) (key : Str) : DB × Bool :=
  SET h db key TOMBSTONE

/-! ### `Database::FLUSH` swap step (client.cpp lines 852-862)

Under the Tier-0 write lock the Flusher swaps the active and frozen
memtables and their filters, zeroes `mem_size`, rotates the WAL
(rename to `WAL_temp.bin`, open a fresh `WAL.bin`), marks the frozen
buffer readable and clears `flushrunning`. -/

def flushSwap (db : DB) : DB :=
  { db with
      memtable := db.readMemtable,
      readMemtable := db.memtable,
      activeFilter := db.frozenFilter,
      frozenFilter := db.activeFilter,
      memSize := 0,
      wal := [],
      ifreadMemtable := true,
      flushrunning := false }

/-- Modelled from the spec: the Part 3 `REPL::GET` that consults the
frozen buffer is not among the source files (only its coordination
primitives `read_lock1`/`write_lock1` and the `FLUSH` path that fills
`read_memtable` appear, in client.cpp); spec §4.4: after missing in the
active buffer, "If the engine has a frozen buffer (flush in progress),
acquire the frozen-buffer reader lock, check the frozen filter and
frozen buffer. Treat a found `TOMBSTONE` value as definitively deleted",
then fall through to the on-disk tiers. -/
def GETfrozen (h : Str → Nat) (db : DB) (key : Str) : Option Str :=
  let onMiss :=
    if db.ifreadMemtable then
      if bfContains h db.frozenFilter key then
        match mapFind key db.readMemtable with
        | some v => if v = TOMBSTONE then none else some v
        | none => tiersScan h key db.tiers
      else tiersScan h key db.tiers
    else tiersScan h key db.tiers
  if bfContains h db.activeFilter key then
    match mapFind key db.memtable with
    | some v => if v = TOMBSTONE then none else some v
    | none => onMiss
  else onMiss

/-! ### Basic filter and map lemmas -/

theorem bfAdd_preserves (h : Str → Nat) (k : Str) (f : BF) (idx : Nat)
    (hf : f idx = true) : bfAdd h k f idx = true := by
  simp [bfAdd, hf]

theorem bfContains_bfAdd_self (h : Str → Nat) (k : Str) (f : BF) :
    bfContains h (bfAdd h k f) k = true := by
  simp only [bfContains, List.all_eq_true]
  intro i hi
  simp only [bfAdd, List.any_eq_true, Bool.or_eq_true]
  exact Or.inr ⟨i, hi, by simp⟩

theorem bfContains_mono (h : Str → Nat) (k1 k : Str) (f : BF)
    (hf : bfContains h f k = true) :
    bfContains h (bfAdd h k1 f) k = true := by
  simp only [bfContains, List.all_eq_true] at hf ⊢
  intro i hi
  exact bfAdd_preserves h k1 f _ (hf i hi)

theorem mapFind_mapInsert_self (k v : Str) (m : List (Str × Str)) :
    mapFind k (mapInsert k v m) = some v := by
  induction m with
  | nil => simp [mapInsert, mapFind]
  | cons hd tl ih =>
    obtain ⟨k1, v1⟩ := hd
    by_cases hlt : k < k1
    · simp [mapInsert, hlt, mapFind]
    · by_cases heq : k = k1
      · simp [mapInsert, hlt, heq, mapFind]
      · simp [mapInsert, hlt, heq, mapFind, ih]

theorem mapFind_mapInsert_other (k v k1 : Str) (m : List (Str × Str))
    (hne : k1 ≠ k) : mapFind k1 (mapInsert k v m) = mapFind k1 m := by
  induction m with
  | nil => simp [mapInsert, mapFind, hne]
  | cons hd tl ih =>
    obtain ⟨k2, v2⟩ := hd
    by_cases hlt : k < k2
    · simp [mapInsert, hlt, mapFind, hne]
    · by_cases heq : k = k2
      · subst heq
        simp [mapInsert, hlt, mapFind, hne]
      · by_cases h12 : k1 = k2
        · simp [mapInsert, hlt, heq, mapFind, h12]
        · simp [mapInsert, hlt, heq, mapFind, h12, ih]

/-- A `tierScan` hit never carries the tombstone as a value. -/
theorem tierScan_not_tombstone (h : Str → Nat) (key : Str)
    (l : List (List (Str × Str) × BF)) (v : Str)
    (hs : tierScan h key l = some (some v)) : v ≠ TOMBSTONE := by
  induction l with
  | nil => simp [tierScan] at hs
  | cons hd tl ih =>
    obtain ⟨run, f⟩ := hd
    by_cases hf : bfContains h f key = true
    · simp only [tierScan, hf, if_true] at hs
      cases hfind : runFind run key with
      | none => rw [hfind] at hs; exact ih hs
      | some v1 =>
        rw [hfind] at hs
        by_cases hv : v1 = TOMBSTONE
        · simp [hv] at hs
        · simp only [hv, if_false] at hs
          cases hs
          exact hv
    · simp only [tierScan, hf, if_false] at hs
      exact ih hs

/-- A `tiersScan` hit never carries the tombstone as a value. -/
theorem tiersScan_not_tombstone (h : Str → Nat) (key : Str)
    (ts : List (List (List (Str × Str) × BF))) (v : Str)
    (hs : tiersScan h key ts = some v) : v ≠ TOMBSTONE := by
  induction ts with
  | nil => simp [tiersScan] at hs
  | cons tier lower ih =>
    simp only [tiersScan] at hs
    cases htier : tierScan h key tier.reverse with
    | none => rw [htier] at hs; exact ih hs
    | some r =>
      rw [htier] at hs
      simp only at hs
      subst hs
      exact tierScan_not_tombstone h key tier.reverse v htier

/-! ## Claims -/

/-- C1 counterexample: the claim quantifies over *every* value `v`, but
`PUT("a", "\r\n")` returns `ok` (3 < MAX) while the subsequent `GET("a")`
finds the stored value equal to `TOMBSTONE` and reports the key absent,
so `GET` does not return `Some("\r\n")`. (The outcome is independent of
the hash function: the filter has no false negatives.) -/
theorem C1_counterexample :
    (SET stdHash DB.empty [97] TOMBSTONE).2 = true ∧
    GET stdHash (SET stdHash DB.empty [97] TOMBSTONE).1 [97] = none := by
  constructor
  · decide
  · decide

/-- C1 (amended): for every key `k` and every value `v` other than the
tombstone sentinel `"\r\n"`, if `PUT(k, v)` returns `ok` then a
subsequent `GET(k)`, with no interleaving `PUT`/`DELETE` on `k`, returns
`Some(v)`. -/
theorem C1_put_then_get (h : Str → Nat) (db : DB) (k v : Str)
    (hv : v ≠ TOMBSTONE) (hok : (SET h db k v).2 = true) :
    GET h (SET h db k v).1 k = some v := by
  by_cases hsz : k.length + v.length ≥ MAXC
  · simp [SET, hsz] at hok
  · simp only [SET, hsz, if_false]
    simp only [GET, bfContains_bfAdd_self, if_true,
      mapFind_mapInsert_self, hv, if_false]

/-- C1 witness: a concrete run of the amended theorem. -/
theorem C1_witness :
    ([120] : Str) ≠ TOMBSTONE ∧
    (SET stdHash DB.empty [97] [120]).2 = true ∧
    GET stdHash (SET stdHash DB.empty [97] [120]).1 [97] = some [120] :=
  ⟨by decide, by decide,
    C1_put_then_get stdHash DB.empty [97] [120] (by decide) (by decide)⟩

/-- C6: `PUT(k, v)` returns `rejected` iff `|k| + |v| >= MAX_RECORD_BYTES`,
and on rejection the state is completely unchanged (in particular the
WAL, the active buffer, its filter and `mem_size`), so a subsequent
`GET(k)` returns the same result as before the rejected `PUT`. -/
theorem C6_oversize_rejected (h : Str → Nat) (db : DB) (k v : Str) :
    ((SET h db k v).2 = false ↔ MAXC ≤ k.length + v.length) ∧
    (MAXC ≤ k.length + v.length →
      (SET h db k v).1 = db ∧
      (SET h db k v).1.wal = db.wal ∧
      (SET h db k v).1.memtable = db.memtable ∧
      (SET h db k v).1.activeFilter = db.activeFilter ∧
      (SET h db k v).1.memSize = db.memSize ∧
      GET h (SET h db k v).1 k = GET h db k) := by
  by_cases hsz : k.length + v.length ≥ MAXC
  · simp [SET, hsz]
  · simp [SET, hsz]

/-- C6 witness: a 4000000-byte key with the empty value is rejected and
leaves the fresh state untouched. -/
theorem C6_witness :
    (SET stdHash DB.empty (List.replicate MAXC 0) []).2 = false ∧
    (SET stdHash DB.empty (List.replicate MAXC 0) []).1 = DB.empty := by
  have hle : MAXC ≤ (List.replicate MAXC (0 : Nat)).length + ([] : Str).length := by
    rw [List.length_replicate]
    exact Nat.le_add_right _ _
  exact ⟨(C6_oversize_rejected stdHash DB.empty (List.replicate MAXC 0) []).1.mpr hle,
    ((C6_oversize_rejected stdHash DB.empty (List.replicate MAXC 0) []).2 hle).1⟩

/-- C9: `GET` never returns the tombstone sentinel as a value — in every
state (reachable or not) `GET(k) = Some(v)` implies `v ≠ "\r\n"` — and a
key whose most recent write stored `"\r\n"` is reported absent. -/
theorem C9_get_never_tombstone (h : Str → Nat) (db : DB) (k : Str) :
    (∀ v, GET h db k = some v → v ≠ TOMBSTONE) ∧
    (k.length + 2 < MAXC → GET h (SET h db k TOMBSTONE).1 k = none) := by
  constructor
  · intro v hget
    simp only [GET] at hget
    by_cases hf : bfContains h db.activeFilter k = true
    · simp only [hf, if_true] at hget
      cases hfind : mapFind k db.memtable with
      | none => rw [hfind] at hget; exact tiersScan_not_tombstone h k db.tiers v hget
      | some v1 =>
        rw [hfind] at hget
        by_cases hv : v1 = TOMBSTONE
        · simp [hv] at hget
        · simp only [hv, if_false] at hget
          cases hget
          exact hv
    · simp only [hf, if_false] at hget
      exact tiersScan_not_tombstone h k db.tiers v hget
  · intro hsz
    have hsz1 : ¬ (k.length + TOMBSTONE.length ≥ MAXC) := by
      simpa [TOMBSTONE] using hsz
    simp only [SET, hsz1, if_false]
    simp [GET, bfContains_bfAdd_self, mapFind_mapInsert_self]

/-- C9 witness: both conjuncts at concrete inputs. -/
theorem C9_witness :
    ([120] : Str) ≠ TOMBSTONE ∧
    GET stdHash (SET stdHash DB.empty [97] TOMBSTONE).1 [97] = none :=
  ⟨(C9_get_never_tombstone stdHash (SET stdHash DB.empty [97] [120]).1 [97]).1
      [120] (by decide),
    (C9_get_never_tombstone stdHash DB.empty [97]).2 (by decide)⟩

/-- C10: `DELETE(k)` is literally `SET(k, TOMBSTONE)` with the two-byte
sentinel `"\r\n"`; it is rejected iff `|k| + 2 >= MAX_RECORD_BYTES`, and
for a key absent from the active buffer it still returns `ok`, appends
`(k, TOMBSTONE)` to the WAL and stores the tombstone in the buffer. -/
theorem C10_delete_is_put_tombstone (h : Str → Nat) (db : DB) (k : Str) :
    DELETE h db k = SET h db k TOMBSTONE ∧
    ((DELETE h db k).2 = false ↔ MAXC ≤ k.length + 2) ∧
    (k.length + 2 < MAXC → mapFind k db.memtable = none →
      (DELETE h db k).2 = true ∧
      (DELETE h db k).1.wal = db.wal ++ [(k, TOMBSTONE)] ∧
      mapFind k (DELETE h db k).1.memtable = some TOMBSTONE) := by
  refine ⟨rfl, ?_, ?_⟩
  · by_cases hsz : k.length + 2 ≥ MAXC
    · have hsz1 : k.length + TOMBSTONE.length ≥ MAXC := by simpa [TOMBSTONE] using hsz
      simp [DELETE, SET, hsz1, hsz]
    · have hsz1 : ¬ (k.length + TOMBSTONE.length ≥ MAXC) := by simpa [TOMBSTONE] using hsz
      simp only [DELETE, SET, hsz1, if_false]
      simpa using hsz
  · intro hsz _
    have hsz1 : ¬ (k.length + TOMBSTONE.length ≥ MAXC) := by simpa [TOMBSTONE] using hsz
    refine ⟨?_, ?_, ?_⟩
    · simp [DELETE, SET, hsz1]
    · simp [DELETE, SET, hsz1]
    · simp [DELETE, SET, hsz1, mapFind_mapInsert_self]

/-- C10 witness: deleting the absent key `"a"` in the fresh state. -/
theorem C10_witness :
    (DELETE stdHash DB.empty [97]).2 = true ∧
    (DELETE stdHash DB.empty [97]).1.wal = [([97], TOMBSTONE)] ∧
    mapFind [97] (DELETE stdHash DB.empty [97]).1.memtable = some TOMBSTONE := by
  have hres := (C10_delete_is_put_tombstone stdHash DB.empty [97]).2.2
      (by decide) (by decide)
  exact ⟨hres.1, by simpa [DB.empty] using hres.2.1, hres.2.2⟩

/-- C2: while a flush is in progress (`flushSwap` has moved the memtable
to the frozen buffer, swapped the filters and raised `ifread_memtable`),
the frozen-buffer-aware `GET` misses in the now-empty active buffer,
consults the frozen filter and frozen buffer, and returns every
non-tombstone record awaiting flush — for arbitrary on-disk tiers, which
are never reached. -/
theorem C2_frozen_buffer_get (h : Str → Nat) (db : DB) (k v : Str)
    (hmem : mapFind k db.memtable = some v) (hv : v ≠ TOMBSTONE)
    (hfilter : bfContains h db.activeFilter k = true)
    (hclear : mapFind k db.readMemtable = none) :
    GETfrozen h (flushSwap db) k = some v := by
  simp only [GETfrozen, flushSwap, hclear, hfilter, hmem, hv, if_false, if_true]
  by_cases hf : bfContains h db.frozenFilter k = true
  · simp [hf]
  · simp [hf]

/-- C2 witness: one record in the frozen buffer during a flush. -/
theorem C2_witness :
    GETfrozen stdHash (flushSwap (SET stdHash DB.empty [97] [120]).1) [97] =
      some [120] :=
  C2_frozen_buffer_get stdHash (SET stdHash DB.empty [97] [120]).1 [97] [120]
    (by decide) (by decide) (by decide) (by decide)

/-- Fold of `BloomFilter::add` over a sequence of keys. -/
def bfAddAll (h : Str → Nat) (f : BF) (ks : List Str) : BF :=
  ks.foldl (fun f1 k => bfAdd h k f1) f

/-- Once `contains` holds it is preserved by further `add`s. -/
theorem bfContains_bfAddAll_mono (h : Str → Nat) (ks : List Str) (k : Str)
    (f : BF) (hf : bfContains h f k = true) :
    bfContains h (bfAddAll h f ks) k = true := by
  induction ks generalizing f with
  | nil => exact hf
  | cons hd tl ih => exact ih (bfAdd h hd f) (bfContains_mono h hd k f hf)

/-- Helper: an added key is contained after any fold of further adds. -/
theorem bfContains_bfAddAll_of_mem (h : Str → Nat) (ks : List Str) (k : Str)
    (f : BF) (hk : k ∈ ks) : bfContains h (bfAddAll h f ks) k = true := by
  rcases List.append_of_mem hk with ⟨s, t, rfl⟩
  unfold bfAddAll
  rw [List.foldl_append]
  simp only [List.foldl_cons]
  exact bfContains_bfAddAll_mono h t k _ (bfContains_bfAdd_self h k _)

/-- C8: the MembershipFilter has no false negatives — after any sequence
of `add`s that includes `add(k)` (and no `clear`), `contains(k)` is
true, for every hash function. -/
theorem C8_no_false_negatives (h : Str → Nat) (ks : List Str) (k : Str)
    (f : BF) (hk : k ∈ ks) : bfContains h (bfAddAll h f ks) k = true :=
  bfContains_bfAddAll_of_mem h ks k f hk

/-- C8 witness: a concrete add sequence containing the key. -/
theorem C8_witness :
    ([97] : Str) ∈ [[98], [97], [99]] ∧
    bfContains stdHash (bfAddAll stdHash bfClear [[98], [97], [99]]) [97] = true :=
  ⟨by decide,
    C8_no_false_negatives stdHash [[98], [97], [99]] [97] bfClear (by decide)⟩

/-! ### Recovery (`Database::initializer_helper` and
`Database::initialize_memtable`, client.cpp lines 325-381)

A WAL file's content is its decoded record list (`u64 klen, klen bytes,
u64 vlen, vlen bytes` per record, in append order). The flush that
`initializer_helper` triggers when the replayed `mem_size` reaches `MAX`
performs the `FLUSH` swap: the replayed buffer becomes the frozen buffer
handed to the Flusher (kept here on a `pending` list, newest last), the
filters are swapped and `mem_size` is reset. -/

/-- The state built by WAL replay during recovery. -/
structure RecSt where
  memtable : List (Str × Str)
  filter : BF
  frozenFilter : BF
  memSize : Nat
  pending : List (List (Str × Str))
  flushed : Bool
  trace : List (Str × Str)

/-- The recovery state before any replay. -/
def RecSt.init : RecSt :=
  { memtable := [], filter := bfClear, frozenFilter := bfClear,
    memSize := 0, pending := [], flushed := false, trace := [] }

/-- One iteration of the `while (file.peek() != EOF)` replay loop:
`mem_size += klen + vlen; write_memtable[key] = val; filters[0][0].add(key)`. -/
def replayRecord (h : Str → Nat) (st : RecSt) (r : Str × Str) : RecSt :=
  { st with
      memtable := mapInsert r.1 r.2 st.memtable,
      filter := bfAdd h r.1 st.filter,
      memSize := st.memSize + r.1.length + r.2.length,
      trace := st.trace ++ [r] }

/-- `Database::initializer_helper`: replay a whole WAL, then
`if (mem_size >= MAX)` trigger a flush (the `FLUSH` swap, awaited via
`T(flushid)`). -/
def initializerHelper (h : Str → Nat) (st : RecSt) (recs : List (Str × Str)) :
    RecSt :=
  let st1 := recs.foldl (replayRecord h) st
  if st1.memSize ≥ MAXC then
    { st1 with
        pending := st1.pending ++ [st1.memtable],
        memtable := [],
        filter := st1.frozenFilter,
        frozenFilter := st1.filter,
        memSize := 0,
        flushed := true }
  else st1

/-- The WAL files that may be present at startup, each as its decoded
record list (`none` = the file does not exist). -/
structure WalFiles where
  walTemp : Option (List (Str × Str))
  walActive : Option (List (Str × Str))
  walTemp1 : Option (List (Str × Str))

/-- `Database::initialize_memtable`: if a staged `WAL_temp.bin` exists
alongside an active `WAL.bin`, the active WAL is renamed to
`WAL_temp1.bin` and both logs are replayed staged-first; the remaining
branches cover a missing staged or active log (a leftover
`WAL_temp1.bin` stands in for the active log when `WAL.bin` is absent). -/
def initializeMemtable (h : Str → Nat) (fs : WalFiles) : RecSt :=
  match fs.walTemp, fs.walActive with
  | some staged, some active =>
    initializerHelper h (initializerHelper h RecSt.init staged) active
  | some staged, none =>
    match fs.walTemp1 with
    | some t1 => initializerHelper h (initializerHelper h RecSt.init staged) t1
    | none => initializerHelper h RecSt.init staged
  | none, some active => initializerHelper h RecSt.init active
  | none, none =>
    match fs.walTemp1 with
    | some t1 => initializerHelper h RecSt.init t1
    | none => RecSt.init

/-- What a `GET` issued right after recovery sees of the replayed data:
the active buffer first, then the pending (frozen / freshly flushed)
buffers newest first. -/
def recLookup (st : RecSt) (k : Str) : Option Str :=
  (mapFind k st.memtable).or (st.pending.reverse.findSome? (mapFind k))

/-- The value of the most recent record for `k` in a record sequence. -/
def lastWrite (recs : List (Str × Str)) (k : Str) : Option Str :=
  recs.foldl (fun acc r => if r.1 = k then some r.2 else acc) none

/-- `|k| + |v|` summed over a record sequence (the replayed `mem_size`;
overwrites are not deducted, exactly as in the source). -/
def sumLens (recs : List (Str × Str)) : Nat :=
  (recs.map (fun r => r.1.length + r.2.length)).sum

/-! Replay lemmas. -/

theorem lastWrite_nil (k : Str) : lastWrite [] k = none := rfl

theorem lastWrite_foldl_or (k : Str) (recs : List (Str × Str))
    (acc : Option Str) :
    recs.foldl (fun a r => if r.1 = k then some r.2 else a) acc =
      (lastWrite recs k).or acc := by
  induction recs generalizing acc with
  | nil => simp [lastWrite, Option.or]
  | cons r rs ih =>
    simp only [lastWrite, List.foldl_cons] at ih ⊢
    rw [ih, ih (if r.1 = k then some r.2 else none)]
    by_cases hk : r.1 = k
    · simp [hk]
      cases rs.foldl (fun a r => if r.1 = k then some r.2 else a) none <;>
        simp [Option.or]
    · simp [hk]

theorem lastWrite_cons (r : Str × Str) (recs : List (Str × Str)) (k : Str) :
    lastWrite (r :: recs) k =
      (lastWrite recs k).or (if r.1 = k then some r.2 else none) := by
  simp only [lastWrite, List.foldl_cons]
  exact lastWrite_foldl_or k recs _

theorem lastWrite_append (a b : List (Str × Str)) (k : Str) :
    lastWrite (a ++ b) k = (lastWrite b k).or (lastWrite a k) := by
  simp only [lastWrite, List.foldl_append]
  exact lastWrite_foldl_or k b _

/-- `mapFind` after a single insert-or-assign. -/
theorem mapFind_mapInsert (k v : Str) (m : List (Str × Str)) (k1 : Str) :
    mapFind k1 (mapInsert k v m) =
      if k = k1 then some v else mapFind k1 m := by
  by_cases hk : k = k1
  · subst hk
    simp [mapFind_mapInsert_self]
  · rw [mapFind_mapInsert_other k v k1 m (fun he => hk he.symm)]
    simp [hk]

/-- Component description of a replay fold. -/
theorem foldl_replay (h : Str → Nat) (st : RecSt) (recs : List (Str × Str)) :
    (recs.foldl (replayRecord h) st).memtable =
        recs.foldl (fun m r => mapInsert r.1 r.2 m) st.memtable ∧
    (recs.foldl (replayRecord h) st).filter =
        bfAddAll h st.filter (recs.map Prod.fst) ∧
    (recs.foldl (replayRecord h) st).frozenFilter = st.frozenFilter ∧
    (recs.foldl (replayRecord h) st).memSize = st.memSize + sumLens recs ∧
    (recs.foldl (replayRecord h) st).pending = st.pending ∧
    (recs.foldl (replayRecord h) st).flushed = st.flushed ∧
    (recs.foldl (replayRecord h) st).trace = st.trace ++ recs := by
  induction recs generalizing st with
  | nil => simp [bfAddAll, sumLens]
  | cons r rs ih =>
    obtain ⟨h1, h2, h3, h4, h5, h6, h7⟩ := ih (replayRecord h st r)
    refine ⟨?_, ?_, ?_, ?_, ?_, ?_, ?_⟩
    · simpa [replayRecord] using h1
    · simpa [replayRecord, bfAddAll] using h2
    · simpa [replayRecord] using h3
    · rw [List.foldl_cons, h4]
      simp only [replayRecord]
      have hsl : sumLens (r :: rs) = r.1.length + r.2.length + sumLens rs := by
        simp [sumLens]
        try omega
      omega
    · simpa [replayRecord] using h5
    · simpa [replayRecord] using h6
    · simpa [replayRecord] using h7

/-- `mapFind` after replaying a record list equals the last write,
falling back to the prior table. -/
theorem mapFind_foldl_insert (recs : List (Str × Str))
    (m : List (Str × Str)) (k : Str) :
    mapFind k (recs.foldl (fun m1 r => mapInsert r.1 r.2 m1) m) =
      (lastWrite recs k).or (mapFind k m) := by
  induction recs generalizing m with
  | nil => simp [lastWrite_nil, Option.or]
  | cons r rs ih =>
    rw [List.foldl_cons, ih, lastWrite_cons, mapFind_mapInsert]
    cases hlw : lastWrite rs k with
    | some v => simp [Option.or]
    | none =>
      by_cases hk : r.1 = k
      · simp [Option.or, hk]
      · simp [Option.or, hk]

theorem sumLens_append (a b : List (Str × Str)) :
    sumLens (a ++ b) = sumLens a + sumLens b := by
  simp [sumLens]

/-- Replaying one WAL prepends its last writes to the recovered view. -/
theorem recLookup_initializerHelper (h : Str → Nat) (st : RecSt)
    (recs : List (Str × Str)) (k : Str) :
    recLookup (initializerHelper h st recs) k =
      (lastWrite recs k).or (recLookup st k) := by
  obtain ⟨h1, _, _, _, h5, _, _⟩ := foldl_replay h st recs
  by_cases hsz : (recs.foldl (replayRecord h) st).memSize ≥ MAXC
  · simp only [initializerHelper, hsz, if_true, recLookup, h5, h1, mapFind,
      List.reverse_append, List.reverse_cons, List.reverse_nil,
      List.nil_append, List.cons_append, List.findSome?_cons]
    rw [mapFind_foldl_insert]
    cases lastWrite recs k with
    | some v => simp [Option.or]
    | none =>
      simp only [Option.or]
      cases mapFind k st.memtable with
      | some v => simp [recLookup, Option.or]
      | none => simp [recLookup, Option.or]
  · simp only [initializerHelper, hsz, if_false, recLookup, h5, h1]
    rw [mapFind_foldl_insert]
    cases lastWrite recs k with
    | some v => simp [Option.or]
    | none =>
      cases mapFind k st.memtable with
      | some v => simp [Option.or]
      | none => simp [Option.or]

/-- Either no flush was triggered by this replay (pending, flushed and
the filter history are untouched) or a flush was (pending grew and
`flushed` is raised). -/
theorem initializerHelper_cases (h : Str → Nat) (st : RecSt)
    (recs : List (Str × Str)) :
    ((initializerHelper h st recs).pending = st.pending ∧
     (initializerHelper h st recs).filter =
        bfAddAll h st.filter (recs.map Prod.fst) ∧
     (initializerHelper h st recs).flushed = st.flushed) ∨
    ((initializerHelper h st recs).pending =
        st.pending ++ [(recs.foldl (replayRecord h) st).memtable] ∧
     (initializerHelper h st recs).flushed = true) := by
  obtain ⟨_, h2, _, _, h5, h6, _⟩ := foldl_replay h st recs
  by_cases hsz : (recs.foldl (replayRecord h) st).memSize ≥ MAXC
  · right
    simp [initializerHelper, hsz, h5]
  · left
    simp [initializerHelper, hsz, h5, h2, h6]

theorem initializerHelper_trace (h : Str → Nat) (st : RecSt)
    (recs : List (Str × Str)) :
    (initializerHelper h st recs).trace = st.trace ++ recs := by
  obtain ⟨_, _, _, _, _, _, h7⟩ := foldl_replay h st recs
  by_cases hsz : (recs.foldl (replayRecord h) st).memSize ≥ MAXC
  · simp [initializerHelper, hsz, h7]
  · simp [initializerHelper, hsz, h7]

theorem initializerHelper_flushed_mono (h : Str → Nat) (st : RecSt)
    (recs : List (Str × Str)) (hf : st.flushed = true) :
    (initializerHelper h st recs).flushed = true := by
  obtain ⟨_, _, _, _, _, h6, _⟩ := foldl_replay h st recs
  by_cases hsz : (recs.foldl (replayRecord h) st).memSize ≥ MAXC
  · simp [initializerHelper, hsz]
  · simp [initializerHelper, hsz, h6, hf]

theorem initializerHelper_memSize (h : Str → Nat) (st : RecSt)
    (recs : List (Str × Str)) :
    ((initializerHelper h st recs).memSize = st.memSize + sumLens recs ∧
     st.memSize + sumLens recs < MAXC) ∨
    ((initializerHelper h st recs).flushed = true ∧
     MAXC ≤ st.memSize + sumLens recs) := by
  obtain ⟨_, _, _, h4, _, _, _⟩ := foldl_replay h st recs
  by_cases hsz : (recs.foldl (replayRecord h) st).memSize ≥ MAXC
  · right
    refine ⟨by simp [initializerHelper, hsz], ?_⟩
    rw [h4] at hsz
    exact hsz
  · left
    rw [h4] at hsz
    constructor
    · simp [initializerHelper, h4, hsz]
    · omega

/-- C7: with a staged `WAL_temp.bin` alongside an active `WAL.bin`, the
active WAL is renamed and both logs are replayed staged-first into the
active WriteBuffer and its filter (the replay trace is exactly
`staged ++ active`); the recovered view of every key is its most recent
record across both logs in that order; if no flush was triggered the
filter contains every replayed key; and if the replayed `mem_size`
reached `MAX_MEMTABLE_BYTES`, a flush was triggered before the engine
returns to service. -/
theorem C7_recovery (h : Str → Nat) (fs : WalFiles)
    (staged active : List (Str × Str))
    (ht : fs.walTemp = some staged) (ha : fs.walActive = some active) :
    (initializeMemtable h fs).trace = staged ++ active ∧
    (∀ k, recLookup (initializeMemtable h fs) k =
        lastWrite (staged ++ active) k) ∧
    ((initializeMemtable h fs).pending = [] →
      ∀ r ∈ staged ++ active,
        bfContains h (initializeMemtable h fs).filter r.1 = true) ∧
    (MAXC ≤ sumLens (staged ++ active) →
      (initializeMemtable h fs).flushed = true) := by
  have hdef : initializeMemtable h fs =
      initializerHelper h (initializerHelper h RecSt.init staged) active := by
    simp [initializeMemtable, ht, ha]
  refine ⟨?_, ?_, ?_, ?_⟩
  · rw [hdef, initializerHelper_trace, initializerHelper_trace]
    simp [RecSt.init]
  · intro k
    rw [hdef, recLookup_initializerHelper, recLookup_initializerHelper,
      lastWrite_append]
    simp only [recLookup, RecSt.init, mapFind, List.reverse_nil,
      List.findSome?_nil, Option.or]
    cases lastWrite active k <;> cases lastWrite staged k <;> rfl
  · intro hp r hr
    rw [hdef] at hp ⊢
    rcases initializerHelper_cases h (initializerHelper h RecSt.init staged)
        active with ⟨hp2, hf2, _⟩ | ⟨hp2, _⟩
    · rcases initializerHelper_cases h RecSt.init staged with
        ⟨hp1, hf1, _⟩ | ⟨hp1, _⟩
      · rw [hf2, hf1]
        have : bfAddAll h (bfAddAll h RecSt.init.filter (staged.map Prod.fst))
            (active.map Prod.fst) =
            bfAddAll h RecSt.init.filter ((staged ++ active).map Prod.fst) := by
          simp [bfAddAll, List.foldl_append]
        rw [this]
        exact bfContains_bfAddAll_of_mem h _ r.1 _
          (List.mem_map_of_mem Prod.fst hr)
      · rw [hp2, hp1] at hp
        simp [RecSt.init] at hp
    · rw [hp2] at hp
      simp at hp
  · intro hsz
    rw [hdef]
    rcases initializerHelper_memSize h RecSt.init staged with
      ⟨hm1, hlt1⟩ | ⟨hf1, _⟩
    · rcases initializerHelper_memSize h
          (initializerHelper h RecSt.init staged) active with
        ⟨_, hlt2⟩ | ⟨hf2, _⟩
      · exfalso
        rw [sumLens_append] at hsz
        have hini : RecSt.init.memSize = 0 := rfl
        rw [hini, Nat.zero_add] at hm1
        rw [hm1] at hlt2
        omega
      · exact hf2
    · exact initializerHelper_flushed_mono h _ active hf1

/-- C7 witness: staged log writes one record for key `a`, the active log
then overwrites `a` and adds `b`; the replay order is staged-first and
`a` recovers to the active log's value. -/
theorem C7_witness :
    (initializeMemtable stdHash
        ⟨some [([97], [120])], some [([97], [121]), ([98], [122])], none⟩).trace =
      [([97], [120]), ([97], [121]), ([98], [122])] ∧
    recLookup (initializeMemtable stdHash
        ⟨some [([97], [120])], some [([97], [121]), ([98], [122])], none⟩) [97] =
      some [121] := by
  have hthm := C7_recovery stdHash
      ⟨some [([97], [120])], some [([97], [121]), ([98], [122])], none⟩
      [([97], [120])] [([97], [121]), ([98], [122])] rfl rfl
  refine ⟨hthm.1, ?_⟩
  rw [hthm.2.1 [97]]
  decide

/-! ### Compaction k-way merge (`merge`, client.cpp lines 471-539)

The C++ loop keeps, per input run `j`, the current record `data[j]`
(initially two empty strings) and the rest of the file behind the
cursor. Each iteration scans `j` from `src.size()-1` down to `0`: a
cursor whose current key is `> prev` is a candidate; otherwise, if its
stream is not at EOF, it reads the next record, which becomes a
candidate. `key`/`val` track the smallest candidate, a strictly smaller
key replacing the incumbent — so on ties the higher-indexed (newer) run
wins. If no cursor produced a candidate the loop breaks; otherwise
`prev := *key` and, unless `last && *val == TOMBSTONE`, the record is
written (`++count` before `Write`, and `Write` increments `count`
again, so `count` grows by 2 per record) together with its two index
offsets; the final `u64` written to the metadata is `count`. -/

structure Cursor where
  head : Str × Str
  rest : List (Str × Str)

/-- `if (!key || data[j].first < *key) { key = ...; val = ...; }`:
a strictly smaller key replaces the incumbent best. -/
def updBest (best : Option (Str × Str)) (c : Str × Str) : Option (Str × Str) :=
  match best with
  | none => some c
  | some b => if c.1 < b.1 then some c else some b

/-- One arm of the `for (j = src.size()-1; j >= 0; --j)` scan. -/
def stepCursor (prev : Str) (c : Cursor) (best : Option (Str × Str)) :
    Cursor × Option (Str × Str) × Bool :=
  if prev < c.head.1 then (c, updBest best c.head, true)
  else
    match c.rest with
    | [] => (c, best, false)
    | r :: rs => (⟨r, rs⟩, updBest best r, true)

/-- The whole scan: the tail of the list (higher indices) is processed
before the head, exactly like the descending `j` loop. Returns the
advanced cursors, the selected best record, and the `flag`. -/
def scan (prev : Str) : List Cursor → List Cursor × Option (Str × Str) × Bool
  | [] => ([], none, false)
  | c :: cs =>
    let t := scan prev cs
    let s := stepCursor prev c t.2.1
    (s.1 :: t.1, s.2.1, t.2.2 || s.2.2)

/-- The `while (1)` merge loop. State: `prev`, the cursors, the records
written so far (`out`, in file order), `count`, `tot_len` and the
stream of index offsets written so far (`meta`). -/
def mergeLoop (last : Bool) :
    Nat → Str → List Cursor → List (Str × Str) → Nat → Nat → List Nat →
    List (Str × Str) × Nat × List Nat
  | 0, _, _, out, count, _, meta => (out, count, meta)
  | fuel + 1, prev, cursors, out, count, totLen, meta =>
    let s := scan prev cursors
    if s.2.2 then
      match s.2.1 with
      | some (k, v) =>
        if last ∧ v = TOMBSTONE then
          mergeLoop last fuel k s.1 out count totLen meta
        else
          mergeLoop last fuel k s.1 (out ++ [(k, v)]) (count + 2)
            (totLen + k.length + v.length)
            (meta ++ [totLen + k.length, totLen + k.length + v.length])
      | none => (out, count, meta)
    else (out, count, meta)

/-- Initial cursors: `data[j] = {"", ""}` for every input run. -/
def initCursors (runs : List (List (Str × Str))) : List Cursor :=
  runs.map fun r => ⟨([], []), r⟩

/-- Enough fuel for the loop to run to completion (proved below for
sorted inputs via the state measure). -/
def mergeFuel (runs : List (List (Str × Str))) : Nat :=
  (runs.map List.length).sum + runs.length + 1

/-- The `merge` function of client.cpp: records written to the data
file, the final `count`, and the offsets written to the metadata file
between the leading `0` and the trailing `count`. Input runs are listed
oldest first (run `j+1.bin` at position `j`). -/
def mergeRun (last : Bool) (runs : List (List (Str × Str))) :
    List (Str × Str) × Nat × List Nat :=
  mergeLoop last (mergeFuel runs) [] (initCursors runs) [] 0 0 []

/-- The metadata (index) file that `merge` writes: the initial `0`, the
offset stream, then the final `count`. -/
def mergeIndex (last : Bool) (runs : List (List (Str × Str))) : List Nat :=
  0 :: (mergeRun last runs).2.2 ++ [(mergeRun last runs).2.1]

/-! `Database::FLUSH` run write-out (client.cpp lines 865-890): the
frozen memtable is written in key order; the metadata file receives the
initial `0`, two offsets per record, and finally `nentries =
read_memtable.size()`. -/

/-- The offset stream: key end and value end for each record. -/
def buildOffsets (totLen : Nat) : List (Str × Str) → List Nat
  | [] => []
  | (k, v) :: rest =>
    (totLen + k.length) :: (totLen + k.length + v.length) ::
      buildOffsets (totLen + k.length + v.length) rest

/-- The concatenated data file of a run. -/
def runData (recs : List (Str × Str)) : List Nat :=
  recs.flatMap fun r => r.1 ++ r.2

/-- The metadata (index) file the Flusher writes for the frozen
memtable `m`. -/
def flushIndex (m : List (Str × Str)) : List Nat :=
  0 :: buildOffsets 0 m ++ [m.length]

/-- Decoding the key sequence of a SortedRun file pair via the index
offsets: record `i` occupies `[offset 2i, offset 2i+2)`, split at
`offset 2i+1`; the trailing count word is never treated as an offset. -/
def decodeKeys (data : List Nat) : List Nat → List Str
  | o1 :: o2 :: o3 :: rest =>
    ((data.drop o1).take (o2 - o1)) :: decodeKeys data (o3 :: rest)
  | _ => []

/-- `bool last = (i == (int)(levels_main.size()) - 1)`
(`Database::compact`, client.cpp line 552), computed before
`get_folder(i+1, ...)` may create the target tier: the flag is true
exactly when the source Tier `i` is the top existing tier, so that the
target Tier `i+1` does not exist yet and is created as the new last
tier by this compaction. -/
def compactLast (levelsMain : List Nat) (i : Nat) : Bool :=
  i == levelsMain.length - 1

/-- The merge a compaction of Tier `i` performs, with the `last` flag as
`Database::compact` computes it. -/
def compactMerge (levelsMain : List Nat) (i : Nat)
    (runs : List (List (Str × Str))) : List (Str × Str) × Nat × List Nat :=
  mergeRun (compactLast levelsMain i) runs

/-! ### Analysis of the scan

`scan` is decomposed into three independent pieces: each cursor is
advanced on its own (`advCursor`); each cursor offers at most one
candidate record (`cand` — its current head if still unconsumed, else
the next record of its stream); and the selected best is the fold of
`updBest` over the candidates in descending index order (`selBest`). -/

/-- The candidate record cursor `c` contributes to one scan. -/
def cand (prev : Str) (c : Cursor) : Option (Str × Str) :=
  if prev < c.head.1 then some c.head
  else
    match c.rest with
    | [] => none
    | r :: _ => some r

/-- How one scan advances cursor `c`. -/
def advCursor (prev : Str) (c : Cursor) : Cursor :=
  if prev < c.head.1 then c
  else
    match c.rest with
    | [] => c
    | r :: rs => ⟨r, rs⟩

/-- The best record selected by one scan (the tail of the cursor list —
the higher, newer indices — is folded first, and only a strictly
smaller key replaces the incumbent, so the newest run wins ties). -/
def selBest (prev : Str) : List Cursor → Option (Str × Str)
  | [] => none
  | c :: cs =>
    match cand prev c with
    | none => selBest prev cs
    | some p => updBest (selBest prev cs) p

/-- The records of cursor `c` not yet consumed by the merge: its head,
if still unemitted (key beyond `prev`), plus its remaining stream. -/
def liveRun (prev : Str) (c : Cursor) : List (Str × Str) :=
  if prev < c.head.1 then c.head :: c.rest else c.rest

/-- Lookup of `k` across the cursors' live records, newest run
(highest index, deepest in the list) first. -/
def liveFind (prev : Str) (cursors : List Cursor) (k : Str) : Option Str :=
  match cursors with
  | [] => none
  | c :: cs => (liveFind prev cs k).or (mapFind k (liveRun prev c))

/-- Lookup of `k` across whole runs, newest run first: the value the
within-tier authority invariant assigns to `k`. -/
def newestVal (runs : List (List (Str × Str))) (k : Str) : Option Str :=
  match runs with
  | [] => none
  | r :: rs => (newestVal rs k).or (mapFind k r)

/-- The merge-loop invariant for one cursor: its live records are
strictly sorted and all at or beyond `prev`. -/
def goodCursor (prev : Str) (c : Cursor) : Prop :=
  List.Chain' (· < ·) ((liveRun prev c).map Prod.fst) ∧
  ∀ p ∈ liveRun prev c, prev ≤ p.1

/-- The merge-loop invariant. -/
def goodState (prev : Str) (cursors : List Cursor) : Prop :=
  ∀ c ∈ cursors, goodCursor prev c

/-- Termination measure contributed by one cursor. -/
def cursorMeasure (prev : Str) (c : Cursor) : Nat :=
  c.rest.length + (if prev < c.head.1 then 1 else 0)

/-- Termination measure of the merge loop. -/
def stateMeasure (prev : Str) (cursors : List Cursor) : Nat :=
  (cursors.map (cursorMeasure prev)).sum

/-! Basic association-list lemmas for live records. -/

theorem mapFind_some_mem {k v : Str} {l : List (Str × Str)}
    (hf : mapFind k l = some v) : (k, v) ∈ l := by
  induction l with
  | nil => simp [mapFind] at hf
  | cons x xs ih =>
    obtain ⟨k1, v1⟩ := x
    by_cases hk : k = k1
    · simp only [mapFind, hk, if_true] at hf
      cases hf
      subst hk
      exact List.mem_cons_self _ _
    · simp only [mapFind, hk, if_false] at hf
      exact List.mem_cons_of_mem _ (ih hf)

theorem mapFind_none_of_keys_ne {k : Str} {l : List (Str × Str)}
    (hne : ∀ x ∈ l, x.1 ≠ k) : mapFind k l = none := by
  induction l with
  | nil => rfl
  | cons x xs ih =>
    have h1 : k ≠ x.1 := fun he => hne x (List.mem_cons_self _ _) he.symm
    simp only [mapFind, h1, if_false]
    exact ih fun y hy => hne y (List.mem_cons_of_mem _ hy)

theorem mapFind_filter {k : Str} {l : List (Str × Str)}
    {p : Str × Str → Bool} (hp : ∀ x ∈ l, x.1 = k → p x = true) :
    mapFind k (l.filter p) = mapFind k l := by
  induction l with
  | nil => rfl
  | cons x xs ih =>
    by_cases hk : k = x.1
    · have hpx : p x = true := hp x (List.mem_cons_self _ _) hk.symm
      simp only [List.filter_cons, hpx, if_true, mapFind, hk]
    · have ihx := ih fun y hy => hp y (List.mem_cons_of_mem _ hy)
      cases hpx : p x with
      | true => simp only [List.filter_cons, hpx, if_true, mapFind, hk, if_false, ihx]
      | false => simp only [List.filter_cons, hpx, Bool.false_eq_true, if_false,
          mapFind, hk, if_false, ihx]

/-! Decomposing the scan. -/

theorem scan_eq (prev : Str) (cursors : List Cursor) :
    scan prev cursors =
      (cursors.map (advCursor prev), selBest prev cursors,
        cursors.any fun c => (cand prev c).isSome) := by
  induction cursors with
  | nil => rfl
  | cons c cs ih =>
    simp only [scan, ih, List.map_cons, selBest, List.any_cons]
    by_cases hlt : prev < c.head.1
    · simp [stepCursor, hlt, cand, advCursor, Bool.or_comm]
    · cases hr : c.rest with
      | nil => simp [stepCursor, hlt, cand, advCursor, hr, Bool.or_comm]
      | cons r rs => simp [stepCursor, hlt, cand, advCursor, hr, Bool.or_comm]

theorem cand_none_liveRun {prev : Str} {c : Cursor}
    (hc : cand prev c = none) : liveRun prev c = [] := by
  by_cases hlt : prev < c.head.1
  · simp [cand, hlt] at hc
  · cases hr : c.rest with
    | nil => simp [liveRun, hlt, hr]
    | cons r rs => simp [cand, hlt, hr] at hc

theorem liveRun_cand_cons {prev : Str} {c : Cursor} {p : Str × Str}
    (hc : cand prev c = some p) :
    ∃ t, liveRun prev c = p :: t := by
  by_cases hlt : prev < c.head.1
  · simp only [cand, hlt, if_true] at hc
    cases hc
    exact ⟨c.rest, by simp [liveRun, hlt]⟩
  · cases hr : c.rest with
    | nil => simp [cand, hlt, hr] at hc
    | cons r rs =>
      simp only [cand, hlt, if_false, hr] at hc
      cases hc
      exact ⟨rs, by simp [liveRun, hlt, hr]⟩

theorem selBest_none {prev : Str} {cursors : List Cursor}
    (hs : selBest prev cursors = none) :
    ∀ c ∈ cursors, cand prev c = none := by
  induction cursors with
  | nil => intro c hc; cases hc
  | cons c cs ih =>
    intro c1 hc1
    simp only [selBest] at hs
    cases hcand : cand prev c with
    | none =>
      rw [hcand] at hs
      rcases List.mem_cons.mp hc1 with rfl | hm
      · exact hcand
      · exact ih hs c1 hm
    | some p =>
      rw [hcand] at hs
      exfalso
      cases hb : selBest prev cs with
      | none => rw [hb] at hs; simp [updBest] at hs
      | some b =>
        rw [hb] at hs
        simp only [updBest] at hs
        by_cases hpb : p.1 < b.1 <;> simp [hpb] at hs

theorem selBest_mem {prev : Str} {cursors : List Cursor} {p : Str × Str}
    (hs : selBest prev cursors = some p) :
    ∃ c ∈ cursors, cand prev c = some p := by
  induction cursors with
  | nil => simp [selBest] at hs
  | cons c cs ih =>
    simp only [selBest] at hs
    cases hcand : cand prev c with
    | none =>
      rw [hcand] at hs
      obtain ⟨c1, hc1, hc2⟩ := ih hs
      exact ⟨c1, List.mem_cons_of_mem _ hc1, hc2⟩
    | some q =>
      rw [hcand] at hs
      cases hb : selBest prev cs with
      | none =>
        rw [hb] at hs
        simp only [updBest] at hs
        cases hs
        exact ⟨c, List.mem_cons_self _ _, hcand⟩
      | some b =>
        rw [hb] at hs
        simp only [updBest] at hs
        by_cases hqb : q.1 < b.1
        · simp only [hqb, if_true] at hs
          cases hs
          exact ⟨c, List.mem_cons_self _ _, hcand⟩
        · simp only [hqb, if_false] at hs
          cases hs
          obtain ⟨c1, hc1, hc2⟩ := ih hb
          exact ⟨c1, List.mem_cons_of_mem _ hc1, hc2⟩

theorem selBest_min {prev : Str} {cursors : List Cursor} {p : Str × Str}
    (hs : selBest prev cursors = some p) :
    ∀ c ∈ cursors, ∀ q, cand prev c = some q → p.1 ≤ q.1 := by
  induction cursors generalizing p with
  | nil => intro c hc; cases hc
  | cons c cs ih =>
    intro c1 hc1 q hq
    simp only [selBest] at hs
    cases hcand : cand prev c with
    | none =>
      rw [hcand] at hs
      rcases List.mem_cons.mp hc1 with rfl | hm
      · rw [hcand] at hq; cases hq
      · exact ih hs c1 hm q hq
    | some q0 =>
      rw [hcand] at hs
      cases hb : selBest prev cs with
      | none =>
        rw [hb] at hs
        simp only [updBest] at hs
        cases hs
        rcases List.mem_cons.mp hc1 with rfl | hm
        · rw [hcand] at hq; cases hq; exact le_refl _
        · exact absurd ((selBest_none hb) c1 hm) (by simp [hq])
      | some b =>
        rw [hb] at hs
        simp only [updBest] at hs
        by_cases hqb : q0.1 < b.1
        · simp only [hqb, if_true] at hs
          cases hs
          rcases List.mem_cons.mp hc1 with rfl | hm
          · rw [hcand] at hq; cases hq; exact le_refl _
          · exact le_trans (le_of_lt hqb) (ih hb c1 hm q hq)
        · simp only [hqb, if_false] at hs
          cases hs
          rcases List.mem_cons.mp hc1 with rfl | hm
          · rw [hcand] at hq
            cases hq
            exact le_of_not_lt hqb
          · exact ih hb c1 hm q hq

theorem selBest_isSome {prev : Str} {cursors : List Cursor} {c : Cursor}
    (hc : c ∈ cursors) {p : Str × Str} (hcand : cand prev c = some p) :
    (selBest prev cursors).isSome = true := by
  induction cursors with
  | nil => cases hc
  | cons c1 cs ih =>
    simp only [selBest]
    rcases List.mem_cons.mp hc with rfl | hm
    · rw [hcand]
      cases hb : selBest prev cs with
      | none => simp [updBest]
      | some b =>
        simp only [updBest]
        by_cases hpb : p.1 < b.1 <;> simp [hpb]
    · cases hcand1 : cand prev c1 with
      | none => exact ih hm
      | some q =>
        have := ih hm
        cases hb : selBest prev cs with
        | none => rw [hb] at this; simp at this
        | some b => simp only [updBest]; by_cases hqb : q.1 < b.1 <;> simp [hqb]

/-! Invariant-based facts about one scan. -/

theorem cand_ge_prev {prev : Str} {c : Cursor} (hg : goodCursor prev c)
    {p : Str × Str} (hc : cand prev c = some p) : prev ≤ p.1 := by
  by_cases hlt : prev < c.head.1
  · simp only [cand, hlt, if_true] at hc
    cases hc
    exact le_of_lt hlt
  · cases hr : c.rest with
    | nil => simp [cand, hlt, hr] at hc
    | cons r rs =>
      simp only [cand, hlt, if_false, hr] at hc
      cases hc
      exact hg.2 p (by simp [liveRun, hlt, hr])

theorem live_ge_of_cand_min {prev k0 : Str} {c : Cursor}
    (hg : goodCursor prev c)
    (hmin : ∀ q, cand prev c = some q → k0 ≤ q.1) :
    ∀ p ∈ liveRun prev c, k0 ≤ p.1 := by
  intro p hp
  cases hcand : cand prev c with
  | none => rw [cand_none_liveRun hcand] at hp; cases hp
  | some q =>
    obtain ⟨t, ht⟩ := liveRun_cand_cons hcand
    have hq := hmin q hcand
    rw [ht] at hp
    rcases List.mem_cons.mp hp with rfl | hm
    · exact hq
    · have hchain := hg.1
      rw [ht] at hchain
      have hpw := (List.chain'_iff_pairwise.mp hchain)
      simp only [List.map_cons, List.pairwise_cons] at hpw
      have : q.1 < p.1 := hpw.1 p.1 (List.mem_map_of_mem Prod.fst hm)
      exact le_of_lt (lt_of_le_of_lt hq this)

theorem mapFind_liveRun_at_min {prev k0 : Str} {c : Cursor}
    (hg : goodCursor prev c)
    (hmin : ∀ q, cand prev c = some q → k0 ≤ q.1) :
    mapFind k0 (liveRun prev c) =
      (cand prev c).bind (fun p => if p.1 = k0 then some p.2 else none) := by
  cases hcand : cand prev c with
  | none => rw [cand_none_liveRun hcand]; rfl
  | some q =>
    obtain ⟨t, ht⟩ := liveRun_cand_cons hcand
    rw [ht]
    by_cases hq : q.1 = k0
    · simp [mapFind, hq.symm, Option.bind]
    · have hchain := hg.1
      rw [ht] at hchain
      have hpw := (List.chain'_iff_pairwise.mp hchain)
      simp only [List.map_cons, List.pairwise_cons] at hpw
      have hk0q : k0 < q.1 := lt_of_le_of_ne (hmin q hcand) (Ne.symm hq)
      have htail : mapFind k0 t = none := by
        apply mapFind_none_of_keys_ne
        intro x hx he
        have : q.1 < x.1 := hpw.1 x.1 (List.mem_map_of_mem Prod.fst hx)
        rw [he] at this
        exact absurd (lt_trans hk0q this) (lt_irrefl k0)
      have hne : k0 ≠ q.1 := ne_of_lt hk0q
      simp [mapFind, hne, htail, Option.bind, hq]

theorem liveFind_none {prev k : Str} {cursors : List Cursor}
    (hall : ∀ c ∈ cursors, mapFind k (liveRun prev c) = none) :
    liveFind prev cursors k = none := by
  induction cursors with
  | nil => rfl
  | cons c cs ih =>
    simp only [liveFind]
    rw [ih fun c1 hc1 => hall c1 (List.mem_cons_of_mem _ hc1),
      hall c (List.mem_cons_self _ _)]
    rfl

theorem liveFind_mem {prev k : Str} {cursors : List Cursor} {v : Str}
    (hf : liveFind prev cursors k = some v) :
    ∃ c ∈ cursors, (k, v) ∈ liveRun prev c := by
  induction cursors with
  | nil => simp [liveFind] at hf
  | cons c cs ih =>
    simp only [liveFind] at hf
    cases hcs : liveFind prev cs k with
    | some v1 =>
      rw [hcs] at hf
      cases hf
      obtain ⟨c1, hc1, hc2⟩ := ih hcs
      exact ⟨c1, List.mem_cons_of_mem _ hc1, hc2⟩
    | none =>
      rw [hcs, Option.none_or] at hf
      exact ⟨c, List.mem_cons_self _ _, mapFind_some_mem hf⟩

theorem selBest_liveFind {prev : Str} {cursors : List Cursor} {p : Str × Str}
    (hg : goodState prev cursors) (hs : selBest prev cursors = some p)
    (hmin : ∀ c ∈ cursors, ∀ q, cand prev c = some q → p.1 ≤ q.1) :
    liveFind prev cursors p.1 = some p.2 := by
  induction cursors generalizing p with
  | nil => simp [selBest] at hs
  | cons c cs ih =>
    have hgc := hg c (List.mem_cons_self _ _)
    have hgcs : goodState prev cs := fun c1 hc1 => hg c1 (List.mem_cons_of_mem _ hc1)
    simp only [selBest] at hs
    simp only [liveFind]
    cases hcand : cand prev c with
    | none =>
      rw [hcand] at hs
      rw [ih hgcs hs fun c1 hc1 => hmin c1 (List.mem_cons_of_mem _ hc1),
        cand_none_liveRun hcand]
      rfl
    | some q =>
      rw [hcand] at hs
      cases hb : selBest prev cs with
      | none =>
        rw [hb] at hs
        simp only [updBest] at hs
        cases hs
        have hnone : liveFind prev cs p.1 = none := by
          apply liveFind_none
          intro c1 hc1
          rw [mapFind_liveRun_at_min (hgcs c1 hc1)
            fun q1 hq1 => hmin c1 (List.mem_cons_of_mem _ hc1) q1 hq1]
          rw [selBest_none hb c1 hc1]
          rfl
        rw [hnone, Option.none_or,
          mapFind_liveRun_at_min hgc fun q1 hq1 => hmin c (List.mem_cons_self _ _) q1 hq1,
          hcand]
        simp
      | some b =>
        rw [hb] at hs
        simp only [updBest] at hs
        by_cases hqb : q.1 < b.1
        · simp only [hqb, if_true] at hs
          cases hs
          have hnone : liveFind prev cs p.1 = none := by
            apply liveFind_none
            intro c1 hc1
            rw [mapFind_liveRun_at_min (hgcs c1 hc1)
              fun q1 hq1 => hmin c1 (List.mem_cons_of_mem _ hc1) q1 hq1]
            cases hcand1 : cand prev c1 with
            | none => rfl
            | some q1 =>
              have hb1 : b.1 ≤ q1.1 := selBest_min hb c1 hc1 q1 hcand1
              have : p.1 ≠ q1.1 := ne_of_lt (lt_of_lt_of_le hqb hb1)
              simp [Option.bind, this.symm]
          rw [hnone, Option.none_or,
            mapFind_liveRun_at_min hgc fun q1 hq1 => hmin c (List.mem_cons_self _ _) q1 hq1,
            hcand]
          simp
        · simp only [hqb, if_false] at hs
          cases hs
          rw [ih hgcs hb fun c1 hc1 => hmin c1 (List.mem_cons_of_mem _ hc1)]
          rfl

/-! How one scan transforms the live records: exactly the records with
keys at or below the selected minimum are consumed. -/

theorem advCursor_liveRun {prev k0 : Str} {c : Cursor}
    (hg : goodCursor prev c)
    (hmin : ∀ q, cand prev c = some q → k0 ≤ q.1)
    (hpk : prev ≤ k0) :
    liveRun k0 (advCursor prev c) =
      (liveRun prev c).filter (fun p => decide (k0 < p.1)) := by
  by_cases hlt : prev < c.head.1
  · have hk0 : k0 ≤ c.head.1 := hmin c.head (by simp [cand, hlt])
    have hlive : liveRun prev c = c.head :: c.rest := by simp [liveRun, hlt]
    have hpw := List.chain'_iff_pairwise.mp hg.1
    rw [hlive] at hpw
    simp only [List.map_cons, List.pairwise_cons] at hpw
    have hrest : c.rest.filter (fun p => decide (k0 < p.1)) = c.rest := by
      refine List.filter_eq_self.mpr fun x hx => ?_
      exact decide_eq_true
        (lt_of_le_of_lt hk0 (hpw.1 x.1 (List.mem_map_of_mem Prod.fst hx)))
    have hadv : advCursor prev c = c := by simp [advCursor, hlt]
    rw [hadv, hlive]
    by_cases hk : k0 < c.head.1
    · simp [liveRun, List.filter_cons, hk, hrest]
    · simp [liveRun, List.filter_cons, hk, hrest]
  · cases hr : c.rest with
    | nil =>
      have hadv : advCursor prev c = c := by simp [advCursor, hlt, hr]
      have hhd : ¬ k0 < c.head.1 :=
        not_lt.mpr (le_trans (le_of_not_lt hlt) hpk)
      rw [hadv]
      simp [liveRun, hlt, hr, hhd]
    | cons r rs =>
      have hk0 : k0 ≤ r.1 := hmin r (by simp [cand, hlt, hr])
      have hlive : liveRun prev c = r :: rs := by simp [liveRun, hlt, hr]
      have hpw := List.chain'_iff_pairwise.mp hg.1
      rw [hlive] at hpw
      simp only [List.map_cons, List.pairwise_cons] at hpw
      have hrest : rs.filter (fun p => decide (k0 < p.1)) = rs := by
        refine List.filter_eq_self.mpr fun x hx => ?_
        exact decide_eq_true
          (lt_of_le_of_lt hk0 (hpw.1 x.1 (List.mem_map_of_mem Prod.fst hx)))
      have hadv : advCursor prev c = ⟨r, rs⟩ := by simp [advCursor, hlt, hr]
      rw [hadv, hlive]
      by_cases hk : k0 < r.1
      · simp [liveRun, List.filter_cons, hk, hrest]
      · simp [liveRun, List.filter_cons, hk, hrest]

theorem goodCursor_adv {prev k0 : Str} {c : Cursor}
    (hg : goodCursor prev c)
    (hmin : ∀ q, cand prev c = some q → k0 ≤ q.1)
    (hpk : prev ≤ k0) :
    goodCursor k0 (advCursor prev c) := by
  constructor
  · rw [advCursor_liveRun hg hmin hpk]
    refine List.chain'_iff_pairwise.mpr ?_
    exact (List.chain'_iff_pairwise.mp hg.1).sublist
      ((List.filter_sublist _).map Prod.fst)
  · rw [advCursor_liveRun hg hmin hpk]
    intro p hp
    have := List.of_mem_filter hp
    exact le_of_lt (of_decide_eq_true this)

theorem cursorMeasure_adv_le {prev k0 : Str} {c : Cursor}
    (hpk : prev ≤ k0) :
    cursorMeasure k0 (advCursor prev c) ≤ cursorMeasure prev c := by
  by_cases hlt : prev < c.head.1
  · have hadv : advCursor prev c = c := by simp [advCursor, hlt]
    rw [hadv]
    simp only [cursorMeasure, hlt, if_true]
    by_cases hk : k0 < c.head.1 <;> simp [hk]
  · cases hr : c.rest with
    | nil =>
      have hadv : advCursor prev c = c := by simp [advCursor, hlt, hr]
      have hhd : ¬ k0 < c.head.1 :=
        not_lt.mpr (le_trans (le_of_not_lt hlt) hpk)
      rw [hadv]
      simp [cursorMeasure, hlt, hhd]
    | cons r rs =>
      have hadv : advCursor prev c = ⟨r, rs⟩ := by simp [advCursor, hlt, hr]
      rw [hadv]
      simp only [cursorMeasure, hlt, if_false, hr, List.length_cons]
      by_cases hk : k0 < r.1 <;> simp [hk]

theorem cursorMeasure_adv_lt {prev : Str} {c : Cursor} {p : Str × Str}
    (hcand : cand prev c = some p) :
    cursorMeasure p.1 (advCursor prev c) < cursorMeasure prev c := by
  by_cases hlt : prev < c.head.1
  · simp only [cand, hlt, if_true] at hcand
    have hp : c.head = p := by injection hcand
    have hadv : advCursor prev c = c := by simp [advCursor, hlt]
    rw [hadv, ← hp]
    simp [cursorMeasure, hlt, lt_irrefl]
  · cases hr : c.rest with
    | nil => simp [cand, hlt, hr] at hcand
    | cons r rs =>
      simp only [cand, hlt, if_false, hr] at hcand
      have hp : r = p := by injection hcand
      subst hp
      have hadv : advCursor prev c = ⟨r, rs⟩ := by simp [advCursor, hlt, hr]
      rw [hadv]
      simp only [cursorMeasure, hlt, if_false, hr, List.length_cons, lt_irrefl]
      omega

theorem stateMeasure_adv_le {prev k0 : Str} :
    ∀ (cursors : List Cursor), goodState prev cursors → prev ≤ k0 →
    stateMeasure k0 (cursors.map (advCursor prev)) ≤
      stateMeasure prev cursors := by
  intro cursors
  induction cursors with
  | nil => intro _ _; exact le_refl _
  | cons c cs ih =>
    intro hg hpk
    simp only [List.map_cons, stateMeasure, List.sum_cons] at *
    exact Nat.add_le_add (cursorMeasure_adv_le hpk)
      (ih (fun c1 hc1 => hg c1 (List.mem_cons_of_mem _ hc1)) hpk)

theorem stateMeasure_adv_lt {prev : Str} {p : Str × Str} (c0 : Cursor) :
    ∀ (cursors : List Cursor), goodState prev cursors → prev ≤ p.1 →
    c0 ∈ cursors → cand prev c0 = some p →
    stateMeasure p.1 (cursors.map (advCursor prev)) <
      stateMeasure prev cursors := by
  intro cursors
  induction cursors with
  | nil => intro _ _ hc0 _; cases hc0
  | cons c cs ih =>
    intro hg hpk hc0 hcand0
    simp only [List.map_cons, stateMeasure, List.sum_cons] at *
    rcases List.mem_cons.mp hc0 with rfl | hm
    · exact Nat.add_lt_add_of_lt_of_le (cursorMeasure_adv_lt hcand0)
        (stateMeasure_adv_le cs (fun c1 hc1 => hg c1 (List.mem_cons_of_mem _ hc1)) hpk)
    · exact Nat.add_lt_add_of_le_of_lt (cursorMeasure_adv_le hpk)
        (ih (fun c1 hc1 => hg c1 (List.mem_cons_of_mem _ hc1)) hpk hm hcand0)

theorem liveFind_adv {prev k0 k : Str} :
    ∀ (cursors : List Cursor), goodState prev cursors →
    (∀ c ∈ cursors, ∀ q, cand prev c = some q → k0 ≤ q.1) →
    prev ≤ k0 → k0 < k →
    liveFind k0 (cursors.map (advCursor prev)) k =
      liveFind prev cursors k := by
  intro cursors
  induction cursors with
  | nil => intro _ _ _ _; rfl
  | cons c cs ih =>
    intro hg hmin hpk hk
    simp only [List.map_cons, liveFind]
    rw [ih (fun c1 hc1 => hg c1 (List.mem_cons_of_mem _ hc1))
      (fun c1 hc1 => hmin c1 (List.mem_cons_of_mem _ hc1)) hpk hk]
    rw [advCursor_liveRun (hg c (List.mem_cons_self _ _))
      (hmin c (List.mem_cons_self _ _)) hpk]
    rw [mapFind_filter fun x hx he => by rw [he]; exact decide_eq_true hk]

theorem liveRun_of_measure_zero {prev : Str} {c : Cursor}
    (h : cursorMeasure prev c = 0) : liveRun prev c = [] := by
  simp only [cursorMeasure] at h
  by_cases hlt : prev < c.head.1
  · simp [hlt] at h
  · simp only [hlt, if_false, Nat.add_zero] at h
    have hr : c.rest = [] := List.eq_nil_of_length_eq_zero h
    simp [liveRun, hlt, hr]

theorem liveFind_of_no_cand {prev : Str} {cursors : List Cursor}
    (h : ∀ c ∈ cursors, cand prev c = none) (k : Str) :
    liveFind prev cursors k = none :=
  liveFind_none fun c hc => by rw [cand_none_liveRun (h c hc)]; rfl

/-- The merge-loop invariant theorem: starting from a good state with
enough fuel, the loop appends a suffix `outd` of records whose keys are
strictly increasing and at or beyond `prev`; each emitted record is the
newest live record for its key; every live key is emitted unless it is
tombstone-dropped; `count` grows by two per record and the metadata by
the two offsets of each record. -/
theorem mergeLoop_spec (last : Bool) :
    ∀ (fuel : Nat) (prev : Str) (cursors : List Cursor)
      (out : List (Str × Str)) (count totLen : Nat) (meta : List Nat),
    goodState prev cursors →
    stateMeasure prev cursors ≤ fuel →
    ∃ outd,
      mergeLoop last fuel prev cursors out count totLen meta =
        (out ++ outd, count + 2 * outd.length,
          meta ++ buildOffsets totLen outd) ∧
      List.Chain' (· < ·) (outd.map Prod.fst) ∧
      (∀ p ∈ outd, prev ≤ p.1) ∧
      (∀ p ∈ outd, liveFind prev cursors p.1 = some p.2) ∧
      (∀ k v, liveFind prev cursors k = some v →
        ¬(last = true ∧ v = TOMBSTONE) → (k, v) ∈ outd) ∧
      (last = true → ∀ p ∈ outd, p.2 ≠ TOMBSTONE) := by
  intro fuel
  induction fuel with
  | zero =>
    intro prev cursors out count totLen meta _hg hm
    have hzero : ∀ c ∈ cursors, cursorMeasure prev c = 0 := by
      intro c hc
      have := Nat.le_zero.mp hm
      exact List.sum_eq_zero_iff.mp this _ (List.mem_map_of_mem _ hc)
    have hlf : ∀ k, liveFind prev cursors k = none :=
      fun k => liveFind_none fun c hc => by
        rw [liveRun_of_measure_zero (hzero c hc)]; rfl
    refine ⟨[], by simp [mergeLoop, buildOffsets], by simp, by simp, by simp,
      ?_, by simp⟩
    intro k v hkv
    rw [hlf k] at hkv
    cases hkv
  | succ fuel ih =>
    intro prev cursors out count totLen meta hg hm
    by_cases hflag : (cursors.any fun c => (cand prev c).isSome) = true
    · obtain ⟨c1, hc1, hc1s⟩ := List.any_eq_true.mp hflag
      obtain ⟨p1, hp1⟩ := Option.isSome_iff_exists.mp hc1s
      have hssome := selBest_isSome hc1 hp1
      obtain ⟨⟨k0, v0⟩, hs⟩ := Option.isSome_iff_exists.mp hssome
      have hmin : ∀ c ∈ cursors, ∀ q, cand prev c = some q → k0 ≤ q.1 :=
        selBest_min hs
      obtain ⟨c0, hc0m, hc0c⟩ := selBest_mem hs
      have hprevk0 : prev ≤ k0 := cand_ge_prev (hg c0 hc0m) hc0c
      have hgood1 : goodState k0 (cursors.map (advCursor prev)) := by
        intro c1 hc1
        obtain ⟨c2, hc2, rfl⟩ := List.mem_map.mp hc1
        exact goodCursor_adv (hg c2 hc2) (hmin c2 hc2) hprevk0
      have hfuel : stateMeasure k0 (cursors.map (advCursor prev)) ≤ fuel := by
        have h1 : stateMeasure k0 (cursors.map (advCursor prev)) <
            stateMeasure prev cursors := by
          simpa using stateMeasure_adv_lt c0 cursors hg hprevk0 hc0m hc0c
        omega
      have hlf0 : liveFind prev cursors k0 = some v0 :=
        selBest_liveFind hg hs hmin
      have hlive1 : ∀ k v, liveFind k0 (cursors.map (advCursor prev)) k = some v →
          k0 < k := by
        intro k v hf
        obtain ⟨c1, hc1, hmem⟩ := liveFind_mem hf
        obtain ⟨c2, hc2, rfl⟩ := List.mem_map.mp hc1
        rw [advCursor_liveRun (hg c2 hc2) (hmin c2 hc2) hprevk0] at hmem
        exact of_decide_eq_true (List.mem_filter.mp hmem).2
      have hge0 : ∀ k v, liveFind prev cursors k = some v → k0 ≤ k := by
        intro k v hf
        obtain ⟨c1, hc1, hmem⟩ := liveFind_mem hf
        exact live_ge_of_cand_min (hg c1 hc1) (hmin c1 hc1) (k, v) hmem
      have hstab : ∀ k, k0 < k →
          liveFind k0 (cursors.map (advCursor prev)) k =
            liveFind prev cursors k :=
        fun k hk => liveFind_adv cursors hg hmin hprevk0 hk
      by_cases htomb : last = true ∧ v0 = TOMBSTONE
      · -- tombstone at the last tier: the record is skipped
        obtain ⟨outd, hres, hchain, hge, hsound, hcompl, hnt⟩ :=
          ih k0 (cursors.map (advCursor prev)) out count totLen meta hgood1 hfuel
        have hstep : mergeLoop last (fuel + 1) prev cursors out count totLen meta =
            mergeLoop last fuel k0 (cursors.map (advCursor prev))
              out count totLen meta := by
          simp only [mergeLoop, scan_eq, hflag, if_true, hs, htomb.1, htomb.2,
            and_self]
        refine ⟨outd, by rw [hstep]; exact hres, hchain, ?_, ?_, ?_, hnt⟩
        · intro p hp
          exact le_trans hprevk0 (hge p hp)
        · intro p hp
          have hs1 := hsound p hp
          rw [← hstab p.1 (hlive1 p.1 p.2 hs1)]
          exact hs1
        · intro k v hkv hnot
          by_cases hk : k = k0
          · subst hk
            rw [hlf0] at hkv
            cases hkv
            exact absurd htomb hnot
          · have hlt : k0 < k :=
              lt_of_le_of_ne (hge0 k v hkv) (fun he => hk he.symm)
            exact hcompl k v (by rw [hstab k hlt]; exact hkv) hnot
      · -- the record is emitted
        obtain ⟨outd, hres, hchain, hge, hsound, hcompl, hnt⟩ :=
          ih k0 (cursors.map (advCursor prev)) (out ++ [(k0, v0)]) (count + 2)
            (totLen + k0.length + v0.length)
            (meta ++ [totLen + k0.length, totLen + k0.length + v0.length])
            hgood1 hfuel
        have hstep : mergeLoop last (fuel + 1) prev cursors out count totLen meta =
            mergeLoop last fuel k0 (cursors.map (advCursor prev))
              (out ++ [(k0, v0)]) (count + 2)
              (totLen + k0.length + v0.length)
              (meta ++ [totLen + k0.length, totLen + k0.length + v0.length]) := by
          simp only [mergeLoop, scan_eq, hflag, if_true, hs]
          simp [htomb]
        have houtd : ∀ p ∈ outd, k0 < p.1 := by
          intro p hp
          exact hlive1 p.1 p.2 (hsound p hp)
        refine ⟨(k0, v0) :: outd, ?_, ?_, ?_, ?_, ?_, ?_⟩
        · rw [hstep, hres]
          refine congrArg₂ Prod.mk ?_ (congrArg₂ Prod.mk ?_ ?_)
          · simp
          · simp only [List.length_cons]
            omega
          · simp [buildOffsets]
        · rw [List.map_cons]
          refine List.chain'_cons'.mpr ⟨?_, hchain⟩
          intro y hy
          have hym := List.mem_of_mem_head? hy
          obtain ⟨p, hp, rfl⟩ := List.mem_map.mp hym
          exact houtd p hp
        · intro p hp
          rcases List.mem_cons.mp hp with rfl | hm
          · exact hprevk0
          · exact le_trans hprevk0 (le_of_lt (houtd p hm))
        · intro p hp
          rcases List.mem_cons.mp hp with rfl | hm
          · exact hlf0
          · rw [← hstab p.1 (houtd p hm)]
            exact hsound p hm
        · intro k v hkv hnot
          by_cases hk : k = k0
          · subst hk
            rw [hlf0] at hkv
            cases hkv
            exact List.mem_cons_self _ _
          · have hlt : k0 < k :=
              lt_of_le_of_ne (hge0 k v hkv) (fun he => hk he.symm)
            exact List.mem_cons_of_mem _
              (hcompl k v (by rw [hstab k hlt]; exact hkv) hnot)
        · intro hlast p hp
          rcases List.mem_cons.mp hp with rfl | hm
          · exact fun he => htomb ⟨hlast, he⟩
          · exact hnt hlast p hm
    · -- no candidate anywhere: the loop stops
      have hfalse : (cursors.any fun c => (cand prev c).isSome) = false := by
        cases hq : cursors.any fun c => (cand prev c).isSome
        · rfl
        · exact absurd hq hflag
      have hnone : ∀ c ∈ cursors, cand prev c = none := by
        intro c hc
        have h2 := List.any_eq_false.mp hfalse c hc
        cases hq : cand prev c with
        | none => rfl
        | some p => rw [hq] at h2; simp at h2
      have hlf : ∀ k, liveFind prev cursors k = none :=
        liveFind_of_no_cand hnone
      have hstep : mergeLoop last (fuel + 1) prev cursors out count totLen meta =
          (out, count, meta) := by
        simp only [mergeLoop, scan_eq]
        simp [hfalse]
      refine ⟨[], by rw [hstep]; simp [buildOffsets], by simp, by simp, by simp,
        ?_, by simp⟩
      intro k v hkv
      rw [hlf k] at hkv
      cases hkv

/-! Top-level facts about `mergeRun`. -/

theorem goodState_init (runs : List (List (Str × Str)))
    (hsorted : ∀ r ∈ runs, List.Chain' (· < ·) (r.map Prod.fst)) :
    goodState [] (initCursors runs) := by
  intro c hc
  obtain ⟨r, hr, rfl⟩ := List.mem_map.mp hc
  have hlive : liveRun [] ⟨(([] : Str), ([] : Str)), r⟩ = r := by
    simp [liveRun, lt_irrefl]
  exact ⟨by rw [hlive]; exact hsorted r hr,
    by rw [hlive]; intro p _; exact List.nil_le⟩

theorem stateMeasure_init (runs : List (List (Str × Str))) :
    stateMeasure [] (initCursors runs) ≤ mergeFuel runs := by
  have he : ∀ rs : List (List (Str × Str)),
      stateMeasure [] (initCursors rs) = (rs.map List.length).sum := by
    intro rs
    induction rs with
    | nil => rfl
    | cons r rs2 ih =>
      simp only [initCursors, List.map_cons, stateMeasure, List.sum_cons] at *
      rw [ih]
      simp [cursorMeasure, lt_irrefl]
  rw [he]
  simp only [mergeFuel]
  omega

theorem liveFind_init (runs : List (List (Str × Str))) (k : Str) :
    liveFind [] (initCursors runs) k = newestVal runs k := by
  induction runs with
  | nil => rfl
  | cons r rs ih =>
    simp only [initCursors, List.map_cons, liveFind, newestVal] at *
    rw [ih]
    have hlive : liveRun [] ⟨(([] : Str), ([] : Str)), r⟩ = r := by
      simp [liveRun, lt_irrefl]
    rw [hlive]

/-- Functional description of the compaction merge on sorted inputs. -/
theorem mergeRun_spec (last : Bool) (runs : List (List (Str × Str)))
    (hsorted : ∀ r ∈ runs, List.Chain' (· < ·) (r.map Prod.fst)) :
    ∃ outd,
      mergeRun last runs = (outd, 2 * outd.length, buildOffsets 0 outd) ∧
      List.Chain' (· < ·) (outd.map Prod.fst) ∧
      (∀ p ∈ outd, newestVal runs p.1 = some p.2) ∧
      (∀ k v, newestVal runs k = some v → ¬(last = true ∧ v = TOMBSTONE) →
        (k, v) ∈ outd) ∧
      (last = true → ∀ p ∈ outd, p.2 ≠ TOMBSTONE) := by
  obtain ⟨outd, hres, hchain, _hge, hsound, hcompl, hnt⟩ :=
    mergeLoop_spec last (mergeFuel runs) [] (initCursors runs) [] 0 0 []
      (goodState_init runs hsorted) (stateMeasure_init runs)
  refine ⟨outd, ?_, hchain, ?_, ?_, hnt⟩
  · simpa [mergeRun] using hres
  · intro p hp
    rw [← liveFind_init runs p.1]
    exact hsound p hp
  · intro k v hkv hnot
    exact hcompl k v (by rw [liveFind_init]; exact hkv) hnot

/-- The final `count` written by `merge` is always twice the number of
records in the data file (for any inputs, sorted or not). -/
theorem mergeLoop_count (last : Bool) :
    ∀ (fuel : Nat) (prev : Str) (cursors : List Cursor)
      (out : List (Str × Str)) (count totLen : Nat) (meta : List Nat),
    (mergeLoop last fuel prev cursors out count totLen meta).2.1 +
        2 * out.length =
      count + 2 * (mergeLoop last fuel prev cursors out count totLen meta).1.length := by
  intro fuel
  induction fuel with
  | zero => intro prev cursors out count totLen meta; simp [mergeLoop]
  | succ fuel ih =>
    intro prev cursors out count totLen meta
    simp only [mergeLoop]
    by_cases hflag : (scan prev cursors).2.2 = true
    · simp only [hflag, if_true]
      cases hbest : (scan prev cursors).2.1 with
      | none => simp
      | some p =>
        obtain ⟨k, v⟩ := p
        dsimp only
        by_cases htomb : last = true ∧ v = TOMBSTONE
        · rw [if_pos htomb]
          exact ih _ _ _ _ _ _
        · rw [if_neg htomb]
          have h1 := ih k (scan prev cursors).1 (out ++ [(k, v)]) (count + 2)
            (totLen + k.length + v.length)
            (meta ++ [totLen + k.length, totLen + k.length + v.length])
          simp only [List.length_append, List.length_cons, List.length_nil] at h1 ⊢
          omega
    · simp only [hflag]
      simp

/-- Decoding an encoded run through its offset stream recovers exactly
the keys of the records written. -/
theorem decodeKeys_encode :
    ∀ (recs : List (Str × Str)) (pre : List Nat) (c : Nat),
    decodeKeys (pre ++ runData recs)
      (pre.length :: buildOffsets pre.length recs ++ [c]) =
      recs.map Prod.fst := by
  intro recs
  induction recs with
  | nil => intro pre c; rfl
  | cons r rest ih =>
    intro pre c
    obtain ⟨k, v⟩ := r
    have hlen : (pre ++ k ++ v).length = pre.length + k.length + v.length := by
      rw [List.length_append, List.length_append]
    have hdata : pre ++ runData ((k, v) :: rest) = (pre ++ k ++ v) ++ runData rest := by
      simp only [runData, List.flatMap_cons]
      simp [List.append_assoc]
    simp only [buildOffsets, List.cons_append, decodeKeys, List.map_cons]
    refine congrArg₂ List.cons ?_ ?_
    · have hX : pre ++ runData ((k, v) :: rest) = pre ++ (k ++ (v ++ runData rest)) := by
        simp only [runData, List.flatMap_cons]
        simp [List.append_assoc]
      rw [hX, List.drop_left, Nat.add_sub_cancel_left, List.take_left]
    · rw [hdata, ← hlen]
      exact ih (pre ++ k ++ v) c

/-! ## Claims about the merge and the run files -/

/-- C3: the claim holds for the Flusher (the final `u64` of the index it
writes is `read_memtable.size()`, the number of records in the data
file), but the Compactor's `merge` increments `count` twice per emitted
record — once in the `Write` lambda and once at the call site — so the
final `u64` of a compacted run's index is always twice the number of
records in its data file. A single-record compaction writes data with 1
record but a final `u64` of 2. -/
theorem C3_final_count :
    (∀ m : List (Str × Str), (flushIndex m).getLast? = some m.length) ∧
    (∀ (last : Bool) (runs : List (List (Str × Str))),
      (mergeRun last runs).2.1 = 2 * (mergeRun last runs).1.length ∧
      (mergeIndex last runs).getLast? = some (mergeRun last runs).2.1) ∧
    (mergeRun false [[([97], [49])]]).1.length = 1 ∧
    (mergeIndex false [[([97], [49])]]).getLast? = some 2 := by
  refine ⟨?_, ?_, by decide, by decide⟩
  · intro m
    show ((0 : Nat) :: (buildOffsets 0 m ++ [m.length])).getLast? = some m.length
    rw [← List.cons_append, List.getLast?_concat]
  · intro last runs
    constructor
    · have := mergeLoop_count last (mergeFuel runs) [] (initCursors runs) [] 0 0 []
      simpa [mergeRun] using this
    · show ((0 : Nat) :: ((mergeRun last runs).2.2 ++ [(mergeRun last runs).2.1])).getLast? =
        some (mergeRun last runs).2.1
      rw [← List.cons_append, List.getLast?_concat]

/-- C5: on strictly sorted input runs, the k-way merge emits a strictly
increasing key sequence (so every key appears at most once — older
duplicates are discarded); every emitted record carries the value of
the highest-indexed (newest) input run containing its key
(`newestVal`); every key of the inputs is emitted with that newest
value unless it is tombstone-dropped at the last tier; and the key
sequence decoded from the written data file via the index offsets is
exactly that emitted (strictly increasing) sequence. -/
theorem C5_merge_emission (last : Bool) (runs : List (List (Str × Str)))
    (hsorted : ∀ r ∈ runs, List.Chain' (· < ·) (r.map Prod.fst)) :
    List.Chain' (· < ·) ((mergeRun last runs).1.map Prod.fst) ∧
    (∀ p ∈ (mergeRun last runs).1, newestVal runs p.1 = some p.2) ∧
    (∀ k v, newestVal runs k = some v → ¬(last = true ∧ v = TOMBSTONE) →
      (k, v) ∈ (mergeRun last runs).1) ∧
    decodeKeys (runData (mergeRun last runs).1) (mergeIndex last runs) =
      (mergeRun last runs).1.map Prod.fst := by
  obtain ⟨outd, hres, hchain, hsound, hcompl, _⟩ := mergeRun_spec last runs hsorted
  have h1 : (mergeRun last runs).1 = outd := by rw [hres]
  have h2 : (mergeRun last runs).2.2 = buildOffsets 0 outd := by rw [hres]
  refine ⟨by rw [h1]; exact hchain, by rw [h1]; exact hsound,
    ?_, ?_⟩
  · intro k v hkv hnot
    rw [h1]
    exact hcompl k v hkv hnot
  · show decodeKeys (runData (mergeRun last runs).1)
      (0 :: (mergeRun last runs).2.2 ++ [(mergeRun last runs).2.1]) = _
    rw [h1, h2]
    have := decodeKeys_encode outd [] (mergeRun last runs).2.1
    simpa using this

/-- C5 witness: two sorted runs sharing key `a`; the merge emits
`a, b, c` strictly increasing, `a` with the newer run's value, and the
index offsets decode back to those keys. -/
theorem C5_witness :
    List.Chain' (· < ·)
      ((mergeRun false
        [[([97], [49]), ([99], [51])], [([97], [50]), ([98], [52])]]).1.map
          Prod.fst) ∧
    ([97], [50]) ∈ (mergeRun false
        [[([97], [49]), ([99], [51])], [([97], [50]), ([98], [52])]]).1 ∧
    decodeKeys
        (runData (mergeRun false
          [[([97], [49]), ([99], [51])], [([97], [50]), ([98], [52])]]).1)
        (mergeIndex false
          [[([97], [49]), ([99], [51])], [([97], [50]), ([98], [52])]]) =
      (mergeRun false
        [[([97], [49]), ([99], [51])], [([97], [50]), ([98], [52])]]).1.map
          Prod.fst :=
  ⟨(C5_merge_emission false
      [[([97], [49]), ([99], [51])], [([97], [50]), ([98], [52])]]
      (by intro r hr; fin_cases hr <;> simp [List.chain'_cons] <;> decide)).1,
   (C5_merge_emission false
      [[([97], [49]), ([99], [51])], [([97], [50]), ([98], [52])]]
      (by intro r hr; fin_cases hr <;> simp [List.chain'_cons] <;> decide)).2.2.1
     [97] [50] (by decide) (by decide),
   (C5_merge_emission false
      [[([97], [49]), ([99], [51])], [([97], [50]), ([98], [52])]]
      (by intro r hr; fin_cases hr <;> simp [List.chain'_cons] <;> decide)).2.2.2⟩

/-- C4: `compact` drops tombstone-valued records exactly when the flag
`last = (i == levels_main.size() - 1)` is set, i.e. when the source
Tier `i` is the top existing tier, so that the target Tier `i+1` is
created by this compaction as the new last tier. In every other
compaction — including one whose target `i+1` already exists and is the
last tier (`i + 1 = levels_main.size() - 1`) — the flag is false and
every tombstone record (as the newest value of its key) is retained. -/
theorem C4_tombstone_gc (levelsMain : List Nat) (i : Nat)
    (runs : List (List (Str × Str)))
    (hsorted : ∀ r ∈ runs, List.Chain' (· < ·) (r.map Prod.fst)) :
    (compactLast levelsMain i = true ↔ i = levelsMain.length - 1) ∧
    (i + 1 < levelsMain.length → compactLast levelsMain i = false) ∧
    (compactLast levelsMain i = true →
      ∀ p ∈ (compactMerge levelsMain i runs).1, p.2 ≠ TOMBSTONE) ∧
    (compactLast levelsMain i = false →
      ∀ k, newestVal runs k = some TOMBSTONE →
        (k, TOMBSTONE) ∈ (compactMerge levelsMain i runs).1) := by
  obtain ⟨outd, hres, _hchain, _hsound, hcompl, hnt⟩ :=
    mergeRun_spec (compactLast levelsMain i) runs hsorted
  have h1 : (compactMerge levelsMain i runs).1 = outd := by
    simp only [compactMerge]
    rw [hres]
  refine ⟨by simp [compactLast], ?_, ?_, ?_⟩
  · intro hlt
    simp only [compactLast, beq_eq_false_iff_ne, ne_eq]
    omega
  · intro hlast p hp
    rw [h1] at hp
    exact hnt hlast p hp
  · intro hlast k hk
    rw [h1]
    refine hcompl k TOMBSTONE hk ?_
    rw [hlast]
    simp

/-- C4 witness: with two tiers recorded in `levels_main` ([0, n] plus a
new one), compacting the top tier (flag true) drops the tombstone,
while compacting into an existing last tier (flag false) keeps it. -/
theorem C4_witness :
    compactLast [1, 1] 1 = true ∧
    (∀ p ∈ (compactMerge [1, 1] 1 [[([97], TOMBSTONE)]]).1, p.2 ≠ TOMBSTONE) ∧
    compactLast [1, 1, 1] 1 = false ∧
    ([97], TOMBSTONE) ∈ (compactMerge [1, 1, 1] 1 [[([97], TOMBSTONE)]]).1 :=
  ⟨by decide,
   (C4_tombstone_gc [1, 1] 1 [[([97], TOMBSTONE)]]
     (by intro r hr; fin_cases hr <;> simp [List.chain'_cons])).2.2.1 (by decide),
   by decide,
   (C4_tombstone_gc [1, 1, 1] 1 [[([97], TOMBSTONE)]]
     (by intro r hr; fin_cases hr <;> simp [List.chain'_cons])).2.2.2
     (by decide) [97] (by decide)⟩

end Docs
